import Mathlib

/-!
# Verification of the AIR constraint-IR core

A shallow embedding of the algebraic constraint graph of the AIR compiler
(`ir/src/constraints/graph.rs`), its degree and segment/domain analyses, the
pass-framework traversals (`ir/src/passes/visitor.rs`), the constant
propagation pass (`ir/src/passes/constant_propagation.rs`) and the constant
pool collection of the JSON backend (`codegen/gce/src/lib.rs`), together with
theorems settling the specification's claims about them.

Machine integers (`u64`, `usize`) are embedded as `Nat`: none of the embedded
code performs arithmetic that can overflow (values are only compared, stored,
maxed, added and multiplied as abstract degree counters or constant
identifiers, exactly as the source treats them).
-/

namespace AirDsl

/-- Reference to a node in a graph by its index in the nodes vector of the
graph struct (`NodeIndex` in `graph.rs`). -/
structure NodeIndex where
  val : Nat
deriving DecidableEq, Repr

/-- A trace-cell access: segment, column index and row offset. The embedding
keeps exactly the accessors `graph.rs` uses (`trace_segment()`,
`row_offset()`); `col_index` is carried for structural equality. -/
structure TraceAccess where
  trace_segment : Nat
  col_index : Nat
  row_offset : Nat
deriving DecidableEq, Repr

/-- Graph leaf values (the `Value` union): constants, trace-cell accesses,
periodic columns (table index and cycle length), public inputs (name and
element index) and random values. -/
inductive Value where
  | Constant (v : Nat)
  | TraceElement (ta : TraceAccess)
  | PeriodicColumn (index : Nat) (cycle_len : Nat)
  | PublicInput (name : String) (index : Nat)
  | RandomValue (index : Nat)
deriving DecidableEq, Repr

/-- An integrity constraint operation or value reference (the `Operation`
union in `graph.rs`); equality is structural, as derived `PartialEq` is in
the source. -/
inductive Operation where
  | Value (v : Value)
  | Add (l r : NodeIndex)
  | Sub (l r : NodeIndex)
  | Mul (l r : NodeIndex)
  | Exp (b : NodeIndex) (k : Nat)
deriving DecidableEq, Repr

/-- A graph node wrapping its operation (`Node` in `graph.rs`). -/
structure Node where
  op : Operation
deriving DecidableEq, Repr

/-- The algebraic graph: an arena of nodes referencing each other by index
(`AlgebraicGraph` in `graph.rs`). -/
structure AlgebraicGraph where
  nodes : List Node
deriving DecidableEq, Repr

/-- The operation stored at an index, or `none` when the index is out of the
arena's bounds (where the source `self.nodes[index.0]` would panic). -/
def nodeOp? (g : AlgebraicGraph) (k : NodeIndex) : Option Operation :=
  (g.nodes[k.val]?).map Node.op

/-- `AlgebraicGraph::insert_op`: scan the arena for a node whose operation is
structurally equal to `op`; if one exists return its (first) index and leave
the graph untouched, otherwise append a new node and return its index. -/
def insert_op (g : AlgebraicGraph) (op : Operation) : NodeIndex × AlgebraicGraph :=
  match g.nodes.findIdx? (fun n => n.op = op) with
  | some i => (⟨i⟩, g)
  | none => (⟨g.nodes.length⟩, ⟨g.nodes ++ [⟨op⟩]⟩)

/-- Run a sequence of `insert_op` calls starting from a graph. -/
def insertMany (g : AlgebraicGraph) (ops : List Operation) : AlgebraicGraph :=
  ops.foldl (fun g op => (insert_op g op).2) g

/-- A graph built from the empty arena by a sequence of `insert_op` calls. -/
def buildGraph (ops : List Operation) : AlgebraicGraph :=
  insertMany ⟨[]⟩ ops

/-- The child indices of an operation, left to right: binary operations have
their two operands, `Exp` its base, leaves none. This is the operand
structure fixed by the `Operation` union and exposed to the pass framework
through the `Graph` trait's `children` method. -/
def opChildren : Operation → List NodeIndex
  | .Value _ => []
  | .Add l r => [l, r]
  | .Sub l r => [l, r]
  | .Mul l r => [l, r]
  | .Exp b _ => [b]

/-- An operation is insertable into graph `g` when every operand index
references an existing node — which is the only way client code can obtain a
`NodeIndex`, since the index field is private and indices are only produced
by `insert_op` returns. -/
def validOp (g : AlgebraicGraph) (op : Operation) : Prop :=
  ∀ c ∈ opChildren op, c.val < g.nodes.length

instance (g : AlgebraicGraph) (op : Operation) : Decidable (validOp g op) := by
  unfold validOp; infer_instance

/-- A build trace is admissible when each operation is valid for the graph
state it is inserted into (children are inserted before parents). -/
def buildOk (g : AlgebraicGraph) : List Operation → Prop
  | [] => True
  | op :: rest => validOp g op ∧ buildOk (insert_op g op).2 rest

def decBuildOk : (g : AlgebraicGraph) → (ops : List Operation) → Decidable (buildOk g ops)
  | _, [] => .isTrue trivial
  | g, op :: rest =>
    @instDecidableAnd _ _ (inferInstanceAs (Decidable (validOp g op)))
      (decBuildOk (insert_op g op).2 rest)

instance (g : AlgebraicGraph) (ops : List Operation) : Decidable (buildOk g ops) :=
  decBuildOk g ops

/-- Every interior node's children reference strictly smaller indices. -/
def Acyclic (g : AlgebraicGraph) : Prop :=
  ∀ k : Nat, ∀ h : k < g.nodes.length,
    ∀ c ∈ opChildren (g.nodes[k]).op, c.val < k

/-- No two distinct arena slots hold structurally equal operations. -/
def UniqueOps (g : AlgebraicGraph) : Prop :=
  ∀ i j : Nat, ∀ hi : i < g.nodes.length, ∀ hj : j < g.nodes.length,
    i ≠ j → (g.nodes[i]).op ≠ (g.nodes[j]).op

/-! ## Degree analysis (`AlgebraicGraph::degree` / `accumulate_degree`)

The source threads a `BTreeMap<usize, usize>` from periodic-column table
index to cycle length through the recursion. The embedding models it as a
key-sorted association list with the same insert-replaces semantics, and the
recursion itself with explicit fuel (the source recursion terminates on the
acyclic graphs the compiler builds; fuel makes the embedding total without
assuming that). -/

/-- `BTreeMap::insert` on a key-sorted association list: replace the entry at
an existing key, otherwise insert in key order. -/
def insertCycle : List (Nat × Nat) → Nat → Nat → List (Nat × Nat)
  | [], i, l => [(i, l)]
  | (k, v) :: rest, i, l =>
    if i < k then (i, l) :: (k, v) :: rest
    else if i = k then (i, l) :: rest
    else (k, v) :: insertCycle rest i l

/-- The table indices present in a cycles map (`BTreeMap` key set). -/
def cycleKeys (c : List (Nat × Nat)) : List Nat := c.map Prod.fst

/-- `AlgebraicGraph::accumulate_degree`: recursively accumulate the base
degree of the subgraph at a node, recording periodic-column cycle lengths in
the shared map (left operand processed before the right one, as in the
source). `none` models fuel exhaustion or an out-of-bounds index (on which
the source indexing panics). -/
def accumulate_degree (g : AlgebraicGraph) :
    Nat → List (Nat × Nat) → NodeIndex → Option (Nat × List (Nat × Nat))
  | 0, _, _ => none
  | fuel + 1, cycles, k =>
    match nodeOp? g k with
    | none => none
    | some (.Value v) =>
      match v with
      | .Constant _ => some (0, cycles)
      | .RandomValue _ => some (0, cycles)
      | .PublicInput _ _ => some (0, cycles)
      | .TraceElement _ => some (1, cycles)
      | .PeriodicColumn i len => some (0, insertCycle cycles i len)
    | some (.Add l r) =>
      match accumulate_degree g fuel cycles l with
      | none => none
      | some (bl, c1) =>
        match accumulate_degree g fuel c1 r with
        | none => none
        | some (br, c2) => some (max bl br, c2)
    | some (.Sub l r) =>
      match accumulate_degree g fuel cycles l with
      | none => none
      | some (bl, c1) =>
        match accumulate_degree g fuel c1 r with
        | none => none
        | some (br, c2) => some (max bl br, c2)
    | some (.Mul l r) =>
      match accumulate_degree g fuel cycles l with
      | none => none
      | some (bl, c1) =>
        match accumulate_degree g fuel c1 r with
        | none => none
        | some (br, c2) => some (bl + br, c2)
    | some (.Exp b e) =>
      match accumulate_degree g fuel cycles b with
      | none => none
      | some (bl, c1) => some (bl * e, c1)

/-- `AlgebraicGraph::degree`: run the accumulator from an empty cycles map;
the resulting `IntegrityConstraintDegree` pairs the base degree with the
recorded cycle lengths (the map's values, in key order — `cycles.values()`).
When no cycles were recorded this list is empty, matching
`IntegrityConstraintDegree::new(base)`. -/
def degree (g : AlgebraicGraph) (fuel : Nat) (k : NodeIndex) : Option (Nat × List Nat) :=
  (accumulate_degree g fuel [] k).map (fun bc => (bc.1, bc.2.map Prod.snd))

/-! ## Segment & domain analysis (`AlgebraicGraph::node_details`)

`ConstraintDomain` and its `merge` / offset-conversion helpers are referenced
by `graph.rs` but their defining module is not among the provided sources, so
they are modelled from the specification (see the individual doc comments).
The `todo!()` panics in `node_details` are modelled as a distinguished
`panicTodo` outcome. -/

/-- The constraint domains: first row, last row, every row, or a lookahead
frame of `k` rows. -/
inductive ConstraintDomain where
  | FirstRow
  | LastRow
  | EveryRow
  | EveryFrame (k : Nat)
deriving DecidableEq, Repr

/-- A domain is a boundary domain when it is `FirstRow` or `LastRow`. -/
def ConstraintDomain.isBoundary : ConstraintDomain → Bool
  | .FirstRow => true
  | .LastRow => true
  | _ => false

/-- A domain is an integrity domain when it is `EveryRow` or `EveryFrame`. -/
def ConstraintDomain.isIntegrity : ConstraintDomain → Bool
  | .EveryRow => true
  | .EveryFrame _ => true
  | _ => false

/-- The semantic errors `node_details` can surface. Only the constructor the
merge operation uses is needed here. -/
inductive SemanticError where
  | IncompatibleConstraintDomains (a b : ConstraintDomain)
deriving DecidableEq, Repr

/-- Modelled from the spec: `ConstraintDomain::merge` is not among the
provided sources. The spec's rules: merging two equal domains yields that
domain; `EveryRow` merges with `EveryFrame(k)` into `EveryFrame(k)`;
`FirstRow` and `LastRow` never merge with each other, and boundary domains
never merge with integrity domains — every combination the spec does not
permit yields `IncompatibleConstraintDomains`. -/
def ConstraintDomain.merge (a b : ConstraintDomain) :
    Except SemanticError ConstraintDomain :=
  if a = b then .ok b
  else
    match a, b with
    | .EveryRow, .EveryFrame k => .ok (.EveryFrame k)
    | .EveryFrame k, .EveryRow => .ok (.EveryFrame k)
    | _, _ => .error (.IncompatibleConstraintDomains a b)

/-- Modelled from the spec: the conversion from a trace-access row offset to
a `ConstraintDomain` (`trace_access.row_offset().into()` in `graph.rs`) is
not among the provided sources. Per the spec, integrity constraints default
to `EveryRow` and a row offset widens the effective frame
(`EveryFrame(k)` is a lookahead window of `k` rows; the spec's scenario 5
gives `EveryFrame(1)` for a next-row access). -/
def domainOfOffset (row_offset : Nat) : ConstraintDomain :=
  if row_offset = 0 then .EveryRow else .EveryFrame row_offset

/-- Outcome of one `node_details` evaluation: a segment/domain pair, a
semantic error, or a `todo!()` panic. -/
inductive DetailsResult where
  | ok (segment : Nat) (domain : ConstraintDomain)
  | err (e : SemanticError)
  | panicTodo
deriving DecidableEq, Repr

/-- `AlgebraicGraph::node_details`: recursively infer the trace segment and
constraint domain of the subgraph at a node. Leaves follow the table in the
source; binary operations take the max of segments and merge domains;
`Exp` inherits from its base. The `todo!()` reached by a `PublicInput` in a
non-boundary default domain, or a `PeriodicColumn` in a non-integrity
default domain, is the `panicTodo` outcome. As in `accumulate_degree`,
`none` is fuel exhaustion or an out-of-bounds index. -/
def node_details (g : AlgebraicGraph) :
    Nat → NodeIndex → ConstraintDomain → Option DetailsResult
  | 0, _, _ => none
  | fuel + 1, k, default_domain =>
    match nodeOp? g k with
    | none => none
    | some (.Value v) =>
      match v with
      | .Constant _ => some (.ok 0 default_domain)
      | .PublicInput _ _ =>
        if default_domain.isBoundary then some (.ok 0 default_domain)
        else some .panicTodo
      | .PeriodicColumn _ _ =>
        if default_domain.isIntegrity then some (.ok 0 .EveryRow)
        else some .panicTodo
      | .RandomValue _ => some (.ok 1 default_domain)
      | .TraceElement ta =>
        some (.ok ta.trace_segment (domainOfOffset ta.row_offset))
    | some (.Add l r) =>
      match node_details g fuel l default_domain with
      | some (.ok ls ld) =>
        match node_details g fuel r default_domain with
        | some (.ok rs rd) =>
          match ld.merge rd with
          | .ok d => some (.ok (max ls rs) d)
          | .error e => some (.err e)
        | other => other
      | other => other
    | some (.Sub l r) =>
      match node_details g fuel l default_domain with
      | some (.ok ls ld) =>
        match node_details g fuel r default_domain with
        | some (.ok rs rd) =>
          match ld.merge rd with
          | .ok d => some (.ok (max ls rs) d)
          | .error e => some (.err e)
        | other => other
      | other => other
    | some (.Mul l r) =>
      match node_details g fuel l default_domain with
      | some (.ok ls ld) =>
        match node_details g fuel r default_domain with
        | some (.ok rs rd) =>
          match ld.merge rd with
          | .ok d => some (.ok (max ls rs) d)
          | .error e => some (.err e)
        | other => other
      | other => other
    | some (.Exp b _) => node_details g fuel b default_domain

/-! ## Pass-framework traversals (`passes/visitor.rs`)

The `Graph` trait's `children` method is determined by the operand structure
of `Operation` (see `opChildren`). The work stack is a `Vec<NodeIndex>` with
`push` / `pop` / `last`; it is embedded as a list whose head is the top of
the stack. -/

/-- The children of the node at an index, `[]` when the index is out of
bounds (the traversals below are only run on in-bounds graphs, where the
source would panic instead). -/
def childrenAt (g : AlgebraicGraph) (k : NodeIndex) : List NodeIndex :=
  match nodeOp? g k with
  | some op => opChildren op
  | none => []

/-- The guard of `visit_postorder`'s visit branch:
`children.is_empty() || last.is_some() && children.contains(&last.unwrap())`. -/
def lastIsChild (g : AlgebraicGraph) (last : Option NodeIndex) (k : NodeIndex) : Bool :=
  (childrenAt g k).isEmpty ||
    match last with
    | some l => (childrenAt g k).contains l
    | none => false

/-- The `while let Some(node_index) = self.peek()` loop of
`Visit::visit_postorder`, producing the sequence of nodes `visit` is invoked
on. When the guard holds the top of the stack is visited and popped and
`last` becomes that node; otherwise the node's children are pushed in
reverse, leaving the node below them. Fuel bounds the loop. -/
def visitPostorderLoop (g : AlgebraicGraph) :
    Nat → List NodeIndex → Option NodeIndex → List NodeIndex
  | 0, _, _ => []
  | _ + 1, [], _ => []
  | fuel + 1, k :: stack, last =>
    if lastIsChild g last k then
      k :: visitPostorderLoop g fuel stack (some k)
    else
      visitPostorderLoop g fuel (childrenAt g k ++ k :: stack) last

/-- `Visit::visit_postorder`: for each root in enumeration order, push it and
run the work-stack loop with `last` reset to `None` (the stack is empty again
when the inner loop exits). -/
def visitPostorderRoots (g : AlgebraicGraph) (roots : List NodeIndex) (fuel : Nat) :
    List NodeIndex :=
  (roots.map (fun r => visitPostorderLoop g fuel [r] none)).flatten

/-- `Visit::visit_manual`: visit each root, in the order the chained
`boundary_roots` / `integrity_roots` iterators yield them. The roots are
stored in `std::collections::HashSet`s, so the enumeration order is an input
here, not a function of the root sets. -/
def visitManualOrder (broots iroots : List NodeIndex) : List NodeIndex :=
  broots ++ iroots

/-- The property claimed of the post-order traversal: every visited node's
children all occur among the strictly earlier visits. -/
def childrenFirstFrom (g : AlgebraicGraph) : List NodeIndex → List NodeIndex → Bool
  | _, [] => true
  | seen, k :: rest =>
    (childrenAt g k).all (fun c => seen.contains c) &&
      childrenFirstFrom g (k :: seen) rest

/-- Every visit in the sequence is preceded by visits of all its children. -/
def childrenFirst (g : AlgebraicGraph) (visits : List NodeIndex) : Bool :=
  childrenFirstFrom g [] visits

/-- The weaker chain property the loop actually maintains: each visited node
either has no children or the immediately preceding visit (seeded with the
incoming `last`) is one of its children. -/
def chainOk (g : AlgebraicGraph) : Option NodeIndex → List NodeIndex → Bool
  | _, [] => true
  | last, k :: rest => lastIsChild g last k && chainOk g (some k) rest

/-! ## Constant propagation (`passes/constant_propagation.rs`)

The pass's `run` forwards to `run_visitor`, which is a stub: it touches
nothing and returns `ControlFlow::Continue(())`, so `run` returns
`Ok(ir)` with the graph unchanged. The MIR graph itself is embedded as an
opaque tree of values and operations — the pass never inspects it. -/

/-- A MIR expression node: a constant leaf or an operation over children. -/
inductive MirNode where
  | constant (v : Nat)
  | add (l r : MirNode)
deriving DecidableEq, Repr

/-- The MIR graph the pass consumes and returns. -/
structure MirGraph where
  nodes : List MirNode
deriving DecidableEq, Repr

/-- `ConstantPropagation::run_visitor`: the body is
`ControlFlow::Continue(())` — nothing is visited, nothing is rewritten. -/
def run_visitor (_ir : MirGraph) : Option Unit := none

/-- `ConstantPropagation::run` (the `Pass` impl): `run_visitor` never breaks
with an error, so the input graph is returned unchanged. -/
def constantPropagationRun (ir : MirGraph) : Except Unit MirGraph :=
  match run_visitor ir with
  | none => .ok ir
  | some e => .error e

/-- Whether a MIR node is an operation whose operands are all constant
leaves (the shape constant propagation is documented to fold away). -/
def isAllConstOp : MirNode → Bool
  | .add (.constant _) (.constant _) => true
  | _ => false

/-- Whether any node in the graph (at any depth) is an operation over
all-constant operands. -/
def hasAllConstOp : MirNode → Bool
  | .constant _ => false
  | .add l r => isAllConstOp (.add l r) || hasAllConstOp l || hasAllConstOp r

/-! ## Constant pool of the JSON backend (`codegen/gce/src/lib.rs`)

`set_constants` walks the named constants of the IR and then the constraint
graph's nodes, appending each value not seen before. The `ir::constraints`
operation type this backend matches on (with `Constant(ConstantValue::Inline(_))`
and `Exp(_, degree)` variants) is not among the provided sources; it is
modelled with exactly the shapes `set_constants` distinguishes: an inline
constant, an exponentiation with its compile-time exponent, and everything
else (which the source's catch-all arm ignores). -/

/-- A named constant's value: scalar, vector, or matrix of `u64` values. -/
inductive ConstantType where
  | Scalar (v : Nat)
  | Vector (vs : List Nat)
  | Matrix (m : List (List Nat))
deriving DecidableEq, Repr

/-- The operation shapes `set_constants` distinguishes in graph nodes. -/
inductive GceOp where
  | inlineConst (v : Nat)
  | exp (degree : Nat)
  | other
deriving DecidableEq, Repr

/-- The slice of `AirIR` the constant-pool collection reads: the declared
named constants, in declaration order, and the constraint graph's nodes, in
arena order. -/
structure GceIR where
  constants : List ConstantType
  nodes : List GceOp
deriving DecidableEq, Repr

/-- Append a value unless it is already present
(`if !constants.contains(value) { constants.push(*value) }`). -/
def pushUnseen (acc : List Nat) (v : Nat) : List Nat :=
  if v ∈ acc then acc else acc ++ [v]

/-- The values a named constant contributes, in the order the source's loops
visit them (vectors left to right, matrices row-major via `flatten`). -/
def namedValues : ConstantType → List Nat
  | .Scalar v => [v]
  | .Vector vs => vs
  | .Matrix m => m.flatten

/-- The values a graph node contributes: an inline constant itself; an `Exp`
exponent, with exponent `0` contributing `1`; other nodes nothing. -/
def nodeValues : GceOp → List Nat
  | .inlineConst v => [v]
  | .exp d => if d = 0 then [1] else [d]
  | .other => []

/-- `set_constants`: fold the named-constant values and then the graph-node
values through `pushUnseen`, starting from the empty pool. -/
def set_constants (ir : GceIR) : List Nat :=
  let named := ir.constants.foldl (fun acc c => (namedValues c).foldl pushUnseen acc) []
  ir.nodes.foldl (fun acc n => (nodeValues n).foldl pushUnseen acc) named

/-- The full stream of constant values the source examines, in examination
order. -/
def constantStream (ir : GceIR) : List Nat :=
  (ir.constants.map namedValues).flatten ++ (ir.nodes.map nodeValues).flatten

/-- The specification's description of the pool: the distinct values of the
stream, in first-sighting order (each value kept at its first occurrence,
later duplicates dropped). -/
def firstSightings : List Nat → List Nat
  | [] => []
  | v :: rest => v :: (firstSightings rest).filter (fun w => w ≠ v)

/-! ## Concrete instances used by witnesses and counterexamples -/

/-- Keys of a cycles map in strictly increasing order — the `BTreeMap`
representation invariant `insertCycle` maintains. -/
def SortedKeys (c : List (Nat × Nat)) : Prop :=
  (cycleKeys c).Sorted (· < ·)

/-- A three-node graph: a periodic-column leaf, a trace-element leaf, and an
`Add` over them. -/
def degreeExampleGraph : AlgebraicGraph :=
  ⟨[⟨.Value (.PeriodicColumn 0 2)⟩,
    ⟨.Value (.TraceElement ⟨0, 0, 0⟩)⟩,
    ⟨.Add ⟨0⟩ ⟨1⟩⟩]⟩

/-- A graph whose only node is a public-input leaf. -/
def publicInputLeafGraph : AlgebraicGraph :=
  ⟨[⟨.Value (.PublicInput "a" 0)⟩]⟩

/-- A graph whose only node is a periodic-column leaf. -/
def periodicLeafGraph : AlgebraicGraph :=
  ⟨[⟨.Value (.PeriodicColumn 0 2)⟩]⟩

/-- A four-node graph in which the leaf at index 0 is shared by the interior
nodes 2 and 3: node 2 is `Add(0, 1)` and the root 3 is `Add(0, 2)`. -/
def sharedLeafGraph : AlgebraicGraph :=
  ⟨[⟨.Value (.Constant 7)⟩,
    ⟨.Value (.Constant 8)⟩,
    ⟨.Add ⟨0⟩ ⟨1⟩⟩,
    ⟨.Add ⟨0⟩ ⟨2⟩⟩]⟩

/-- A MIR graph holding one addition whose operands are both constants. -/
def mirAllConstExample : MirGraph :=
  ⟨[.add (.constant 1) (.constant 2)]⟩

/-- The IR slice of the spec's scenario 4:
`const A = 1`, `const B = [0, 1]`, `const C = [[1, 2], [2, 0]]`, and a graph
holding the lowering of `enf a.first = 5` (a trace access, the inline
constant 5, and their difference). -/
def gceScenario4 : GceIR :=
  ⟨[.Scalar 1, .Vector [0, 1], .Matrix [[1, 2], [2, 0]]],
   [.other, .inlineConst 5, .other]⟩

/-! ## Behaviour of `insert_op` (towards claims C1, C5, C10) -/

theorem insert_op_of_findIdx_some {g : AlgebraicGraph} {op : Operation} {i : Nat}
    (h : g.nodes.findIdx? (fun n => n.op = op) = some i) :
    insert_op g op = (⟨i⟩, g) := by
  unfold insert_op; rw [h]

theorem insert_op_of_findIdx_none {g : AlgebraicGraph} {op : Operation}
    (h : g.nodes.findIdx? (fun n => n.op = op) = none) :
    insert_op g op = (⟨g.nodes.length⟩, ⟨g.nodes ++ [⟨op⟩]⟩) := by
  unfold insert_op; rw [h]

theorem insert_op_holds (g : AlgebraicGraph) (op : Operation) :
    nodeOp? (insert_op g op).2 (insert_op g op).1 = some op := by
  rcases hf : g.nodes.findIdx? (fun n => n.op = op) with _ | i
  · rw [insert_op_of_findIdx_none hf]
    simp [nodeOp?]
  · rw [insert_op_of_findIdx_some hf]
    rcases List.findIdx?_eq_some_iff_getElem.mp hf with ⟨hlt, hp, _⟩
    simp only [nodeOp?, List.getElem?_eq_getElem hlt, Option.map_some]
    simpa using hp

theorem insert_op_index_lt (g : AlgebraicGraph) (op : Operation) :
    (insert_op g op).1.val < (insert_op g op).2.nodes.length := by
  have h := insert_op_holds g op
  unfold nodeOp? at h
  rcases hx : (insert_op g op).2.nodes[(insert_op g op).1.val]? with _ | n
  · rw [hx] at h; simp at h
  · exact (List.getElem?_eq_some_iff.mp hx).1

theorem insert_op_len_le (g : AlgebraicGraph) (op : Operation) :
    g.nodes.length ≤ (insert_op g op).2.nodes.length := by
  rcases hf : g.nodes.findIdx? (fun n => n.op = op) with _ | i
  · rw [insert_op_of_findIdx_none hf]; simp
  · rw [insert_op_of_findIdx_some hf]

theorem insert_op_frame_lemma (g : AlgebraicGraph) (op : Operation) {i : Nat}
    (h : i < g.nodes.length) :
    (insert_op g op).2.nodes[i]? = g.nodes[i]? := by
  rcases hf : g.nodes.findIdx? (fun n => n.op = op) with _ | j
  · rw [insert_op_of_findIdx_none hf]
    exact List.getElem?_append_left h
  · rw [insert_op_of_findIdx_some hf]

theorem insertMany_cons (g : AlgebraicGraph) (op : Operation) (rest : List Operation) :
    insertMany g (op :: rest) = insertMany (insert_op g op).2 rest := rfl

theorem insertMany_frame (ops : List Operation) :
    ∀ (g : AlgebraicGraph) {i : Nat}, i < g.nodes.length →
      (insertMany g ops).nodes[i]? = g.nodes[i]? := by
  induction ops with
  | nil => intro g i h; rfl
  | cons op rest ih =>
    intro g i h
    rw [insertMany_cons,
      ih (insert_op g op).2 (lt_of_lt_of_le h (insert_op_len_le g op)),
      insert_op_frame_lemma g op h]

theorem insert_op_finds (g : AlgebraicGraph) (op : Operation) :
    (insert_op g op).2.nodes.findIdx? (fun n => n.op = op) =
      some (insert_op g op).1.val := by
  rcases hf : g.nodes.findIdx? (fun n => n.op = op) with _ | i
  · rw [insert_op_of_findIdx_none hf]
    apply List.findIdx?_eq_some_iff_getElem.mpr
    refine ⟨by simp, ?_, ?_⟩
    · simp
    · intro j hj
      have hj' : j < g.nodes.length := hj
      have hmem : g.nodes[j] ∈ g.nodes := List.getElem_mem hj'
      have hno := List.findIdx?_eq_none_iff.mp hf _ hmem
      simpa [List.getElem_append_left hj'] using hno
  · rw [insert_op_of_findIdx_some hf]; exact hf

theorem uniqueOps_insert (g : AlgebraicGraph) (op : Operation)
    (hu : UniqueOps g) : UniqueOps (insert_op g op).2 := by
  rcases hf : g.nodes.findIdx? (fun n => n.op = op) with _ | i
  · rw [insert_op_of_findIdx_none hf]
    intro i j hi hj hne
    have hi0 : i < g.nodes.length + 1 := by simpa using hi
    have hj0 : j < g.nodes.length + 1 := by simpa using hj
    by_cases hi' : i < g.nodes.length <;> by_cases hj' : j < g.nodes.length
    · rw [List.getElem_append_left hi', List.getElem_append_left hj']
      exact hu i j hi' hj' hne
    · have hj2 : j = g.nodes.length := by omega
      subst hj2
      rw [List.getElem_append_left hi', List.getElem_concat_length _ _ _ rfl]
      have hmem : g.nodes[i] ∈ g.nodes := List.getElem_mem hi'
      have hno := List.findIdx?_eq_none_iff.mp hf _ hmem
      simpa using hno
    · have hi2 : i = g.nodes.length := by omega
      subst hi2
      rw [List.getElem_append_left hj', List.getElem_concat_length _ _ _ rfl]
      have hmem : g.nodes[j] ∈ g.nodes := List.getElem_mem hj'
      have hno := List.findIdx?_eq_none_iff.mp hf _ hmem
      intro hcon
      have hne2 : (g.nodes[j]).op ≠ op := by simpa using hno
      exact hne2 hcon.symm
    · omega
  · rw [insert_op_of_findIdx_some hf]; exact hu

theorem acyclic_insert (g : AlgebraicGraph) (op : Operation)
    (ha : Acyclic g) (hv : validOp g op) : Acyclic (insert_op g op).2 := by
  rcases hf : g.nodes.findIdx? (fun n => n.op = op) with _ | i
  · rw [insert_op_of_findIdx_none hf]
    intro k hk c hc
    have hk0 : k < g.nodes.length + 1 := by simpa using hk
    by_cases hk' : k < g.nodes.length
    · rw [List.getElem_append_left hk'] at hc
      exact ha k hk' c hc
    · have hk2 : k = g.nodes.length := by omega
      subst hk2
      rw [List.getElem_concat_length _ _ _ rfl] at hc
      exact hv c (by simpa using hc)
  · rw [insert_op_of_findIdx_some hf]; exact ha

theorem insertMany_uniqueOps (ops : List Operation) :
    ∀ g : AlgebraicGraph, UniqueOps g → UniqueOps (insertMany g ops) := by
  induction ops with
  | nil => intro g h; exact h
  | cons op rest ih =>
    intro g h
    rw [insertMany_cons]
    exact ih _ (uniqueOps_insert g op h)

theorem insertMany_acyclic (ops : List Operation) :
    ∀ g : AlgebraicGraph, Acyclic g → buildOk g ops → Acyclic (insertMany g ops) := by
  induction ops with
  | nil => intro g h _; exact h
  | cons op rest ih =>
    intro g h hok
    rw [insertMany_cons]
    exact ih _ (acyclic_insert g op h hok.1) hok.2

/-- C1: inserting an operation structurally equal to one already in the
arena returns the existing node's index and creates no node; in a graph
built by a sequence of `insert_op` calls no two distinct indices hold equal
operations; and two consecutive insertions return the same index exactly
when the two operations are equal. -/
theorem c1_hash_consing :
    (∀ (g : AlgebraicGraph) (op : Operation), (∃ n ∈ g.nodes, n.op = op) →
      (insert_op g op).2 = g ∧ nodeOp? g (insert_op g op).1 = some op) ∧
    (∀ ops : List Operation, UniqueOps (buildGraph ops)) ∧
    (∀ (g : AlgebraicGraph) (a b : Operation),
      (insert_op g a).1 = (insert_op (insert_op g a).2 b).1 ↔ a = b) := by
  refine ⟨?_, ?_, ?_⟩
  · intro g op hex
    rcases hf : g.nodes.findIdx? (fun n => n.op = op) with _ | i
    · exfalso
      rcases hex with ⟨n, hn, hop⟩
      have := List.findIdx?_eq_none_iff.mp hf n hn
      simp [hop] at this
    · rw [insert_op_of_findIdx_some hf]
      rcases List.findIdx?_eq_some_iff_getElem.mp hf with ⟨hlt, hp, _⟩
      refine ⟨rfl, ?_⟩
      simp only [nodeOp?, List.getElem?_eq_getElem hlt, Option.map_some]
      simpa using hp
  · intro ops
    apply insertMany_uniqueOps
    intro i j hi _ _
    simp at hi
  · intro g a b
    constructor
    · intro heq
      have h1 := insert_op_holds g a
      have h2 := insert_op_holds (insert_op g a).2 b
      have hlt := insert_op_index_lt g a
      have hframe :=
        insert_op_frame_lemma (insert_op g a).2 b (i := (insert_op g a).1.val) hlt
      unfold nodeOp? at h1 h2
      rw [← heq, hframe, h1] at h2
      exact (Option.some.injEq _ _).mp h2
    · intro heq
      subst heq
      have := insert_op_of_findIdx_some (insert_op_finds g a)
      rw [this]

/-- Witness for C1: re-inserting an operation already in a concrete arena
leaves the arena unchanged. -/
theorem c1_hash_consing_witness :
    (insert_op (buildGraph [.Value (.Constant 1)]) (.Value (.Constant 1))).2 =
      buildGraph [.Value (.Constant 1)] :=
  (c1_hash_consing.1 (buildGraph [.Value (.Constant 1)]) (.Value (.Constant 1))
    (by decide)).1

/-- C5: a graph built from the empty arena by `insert_op` calls whose
operand indices always reference already-inserted nodes has every interior
node's child indices strictly below the node's own index: the graph is
acyclic by construction. -/
theorem c5_acyclic_by_construction :
    ∀ ops : List Operation, buildOk ⟨[]⟩ ops → Acyclic (buildGraph ops) := by
  intro ops hok
  apply insertMany_acyclic ops ⟨[]⟩ _ hok
  intro k hk
  simp at hk

/-- Witness for C5 at a concrete build: two constant leaves then an `Add`
over them. -/
theorem c5_acyclic_by_construction_witness :
    Acyclic (buildGraph
      [.Value (.Constant 7), .Value (.Constant 8), .Add ⟨0⟩ ⟨1⟩]) :=
  c5_acyclic_by_construction
    [.Value (.Constant 7), .Value (.Constant 8), .Add ⟨0⟩ ⟨1⟩] (by decide)

/-- C10: `insert_op` either returns the index of an existing equal node and
leaves the arena unchanged, or appends exactly one node at index equal to
the previous arena length and returns that index; existing slots are never
modified and previously returned indices keep resolving to the same node
after any number of later insertions. -/
theorem c10_insert_op_frame (g : AlgebraicGraph) (op : Operation) :
    (((insert_op g op).2 = g ∧ (insert_op g op).1.val < g.nodes.length ∧
        nodeOp? g (insert_op g op).1 = some op) ∨
      ((insert_op g op).1.val = g.nodes.length ∧
        (insert_op g op).2.nodes = g.nodes ++ [⟨op⟩])) ∧
    (∀ i : Nat, i < g.nodes.length →
      (insert_op g op).2.nodes[i]? = g.nodes[i]?) ∧
    (∀ ops : List Operation, ∀ i : Nat, i < g.nodes.length →
      (insertMany g ops).nodes[i]? = g.nodes[i]?) := by
  refine ⟨?_, fun i h => insert_op_frame_lemma g op h,
    fun ops i h => insertMany_frame ops g h⟩
  rcases hf : g.nodes.findIdx? (fun n => n.op = op) with _ | i
  · right
    rw [insert_op_of_findIdx_none hf]
    exact ⟨rfl, rfl⟩
  · left
    rw [insert_op_of_findIdx_some hf]
    rcases List.findIdx?_eq_some_iff_getElem.mp hf with ⟨hlt, hp, _⟩
    refine ⟨rfl, hlt, ?_⟩
    simp only [nodeOp?, List.getElem?_eq_getElem hlt, Option.map_some]
    simpa using hp

/-- Witness for C10: an index valid before an insertion still resolves to
the same node afterwards, at a concrete graph and insertion. -/
theorem c10_insert_op_frame_witness :
    (insert_op (buildGraph [.Value (.Constant 1)])
        (.Add ⟨0⟩ ⟨0⟩)).2.nodes[0]? =
      (buildGraph [.Value (.Constant 1)]).nodes[0]? :=
  (c10_insert_op_frame (buildGraph [.Value (.Constant 1)])
    (.Add ⟨0⟩ ⟨0⟩)).2.1 0 (by decide)

/-! ## Degree accumulation lemmas (towards claim C2) -/

theorem insertCycle_keys_mem (i l t : Nat) :
    ∀ c : List (Nat × Nat),
      t ∈ cycleKeys (insertCycle c i l) ↔ t = i ∨ t ∈ cycleKeys c := by
  intro c
  induction c with
  | nil => simp [insertCycle, cycleKeys]
  | cons kv rest ih =>
    obtain ⟨k, v⟩ := kv
    rcases lt_trichotomy i k with h1 | h1 | h1
    · simp [insertCycle, h1, cycleKeys]
    · subst h1
      simp [insertCycle, lt_irrefl, cycleKeys]
    · have h2 : ¬ i < k := by omega
      have h3 : ¬ i = k := by omega
      simp only [insertCycle, if_neg h2, if_neg h3, cycleKeys, List.map_cons,
        List.mem_cons]
      simp only [cycleKeys] at ih
      tauto

theorem insertCycle_sorted (i l : Nat) :
    ∀ c : List (Nat × Nat), SortedKeys c → SortedKeys (insertCycle c i l) := by
  intro c
  induction c with
  | nil => intro _; simp [insertCycle, SortedKeys, cycleKeys]
  | cons kv rest ih =>
    obtain ⟨k, v⟩ := kv
    intro hs
    have hs' : (∀ b ∈ cycleKeys rest, k < b) ∧ (cycleKeys rest).Sorted (· < ·) := by
      simpa only [SortedKeys, cycleKeys, List.map_cons, List.sorted_cons] using hs
    obtain ⟨hk, hrest⟩ := hs'
    by_cases h1 : i < k
    · simp only [insertCycle, if_pos h1, SortedKeys, cycleKeys, List.map_cons]
      refine List.sorted_cons.mpr ⟨?_, List.sorted_cons.mpr ⟨hk, hrest⟩⟩
      intro b hb
      rcases List.mem_cons.mp hb with hbk | hbr
      · omega
      · exact lt_trans h1 (hk b hbr)
    · by_cases h2 : i = k
      · subst h2
        simp only [insertCycle, if_neg h1, if_pos rfl, SortedKeys, cycleKeys,
          List.map_cons]
        exact List.sorted_cons.mpr ⟨hk, hrest⟩
      · have h3 : k < i := by omega
        simp only [insertCycle, if_neg h1, if_neg h2, SortedKeys, cycleKeys,
          List.map_cons]
        refine List.sorted_cons.mpr ⟨?_, ih hrest⟩
        intro b hb
        rcases (insertCycle_keys_mem i l b rest).mp hb with hbi | hbr
        · omega
        · exact hk b hbr

theorem accumulate_degree_sortedKeys (g : AlgebraicGraph) :
    ∀ f : Nat, ∀ (k : NodeIndex) (c : List (Nat × Nat)) (b : Nat)
      (d : List (Nat × Nat)),
      accumulate_degree g f c k = some (b, d) → SortedKeys c → SortedKeys d := by
  intro f
  induction f with
  | zero =>
    intro k c b d h _
    simp [accumulate_degree] at h
  | succ f ih =>
    intro k c b d h hc
    rcases hop : nodeOp? g k with _ | op
    · simp [accumulate_degree, hop] at h
    rcases op with v | ⟨l, r⟩ | ⟨l, r⟩ | ⟨l, r⟩ | ⟨bb, e⟩
    · rcases v with K | ta | ⟨pi, len⟩ | ⟨s, pi⟩ | ri <;>
        simp only [accumulate_degree, hop, Option.some.injEq, Prod.mk.injEq] at h <;>
        obtain ⟨hb, hd⟩ := h
      · rw [← hd]; exact hc
      · rw [← hd]; exact hc
      · rw [← hd]; exact insertCycle_sorted pi len c hc
      · rw [← hd]; exact hc
      · rw [← hd]; exact hc
    · rcases hl : accumulate_degree g f c l with _ | ⟨bl, c1⟩ <;>
        simp [accumulate_degree, hop, hl] at h
      rcases hr : accumulate_degree g f c1 r with _ | ⟨br, c2⟩ <;>
        simp [hr] at h
      obtain ⟨hb, hd⟩ := h
      rw [← hd]
      exact ih r c1 br c2 hr (ih l c bl c1 hl hc)
    · rcases hl : accumulate_degree g f c l with _ | ⟨bl, c1⟩ <;>
        simp [accumulate_degree, hop, hl] at h
      rcases hr : accumulate_degree g f c1 r with _ | ⟨br, c2⟩ <;>
        simp [hr] at h
      obtain ⟨hb, hd⟩ := h
      rw [← hd]
      exact ih r c1 br c2 hr (ih l c bl c1 hl hc)
    · rcases hl : accumulate_degree g f c l with _ | ⟨bl, c1⟩ <;>
        simp [accumulate_degree, hop, hl] at h
      rcases hr : accumulate_degree g f c1 r with _ | ⟨br, c2⟩ <;>
        simp [hr] at h
      obtain ⟨hb, hd⟩ := h
      rw [← hd]
      exact ih r c1 br c2 hr (ih l c bl c1 hl hc)
    · rcases hl : accumulate_degree g f c bb with _ | ⟨bl, c1⟩ <;>
        simp [accumulate_degree, hop, hl] at h
      obtain ⟨hb, hd⟩ := h
      rw [← hd]
      exact ih bb c bl c1 hl hc

/-- The base degree a subgraph contributes, and the set of periodic-column
table indices it collects, are independent of the incoming cycles map: a run
from any starting map succeeds with the same base degree, and the final key
set is the collected set united with the starting key set. -/
theorem accumulate_degree_transfer (g : AlgebraicGraph) :
    ∀ f : Nat, ∀ (k : NodeIndex) (c : List (Nat × Nat)) (b : Nat)
      (d : List (Nat × Nat)),
      accumulate_degree g f c k = some (b, d) →
      ∃ S : List Nat,
        (∀ t, t ∈ cycleKeys d ↔ t ∈ S ∨ t ∈ cycleKeys c) ∧
        (∀ c2 : List (Nat × Nat), ∃ d2,
          accumulate_degree g f c2 k = some (b, d2) ∧
          (∀ t, t ∈ cycleKeys d2 ↔ t ∈ S ∨ t ∈ cycleKeys c2)) := by
  intro f
  induction f with
  | zero =>
    intro k c b d h
    simp [accumulate_degree] at h
  | succ f ih =>
    intro k c b d h
    rcases hop : nodeOp? g k with _ | op
    · simp [accumulate_degree, hop] at h
    rcases op with v | ⟨l, r⟩ | ⟨l, r⟩ | ⟨l, r⟩ | ⟨bb, e⟩
    · rcases v with K | ta | ⟨pi, len⟩ | ⟨s, pi⟩ | ri <;>
        simp only [accumulate_degree, hop, Option.some.injEq, Prod.mk.injEq] at h <;>
        obtain ⟨hb, hd⟩ := h <;> subst hb
      · exact ⟨[], by rw [← hd]; simp, fun c2 => ⟨c2, by simp [accumulate_degree, hop], by simp⟩⟩
      · exact ⟨[], by rw [← hd]; simp, fun c2 => ⟨c2, by simp [accumulate_degree, hop], by simp⟩⟩
      · refine ⟨[pi], ?_, ?_⟩
        · intro t
          rw [← hd]
          simp [insertCycle_keys_mem]
        · intro c2
          refine ⟨insertCycle c2 pi len, by simp [accumulate_degree, hop], ?_⟩
          intro t
          simp [insertCycle_keys_mem]
      · exact ⟨[], by rw [← hd]; simp, fun c2 => ⟨c2, by simp [accumulate_degree, hop], by simp⟩⟩
      · exact ⟨[], by rw [← hd]; simp, fun c2 => ⟨c2, by simp [accumulate_degree, hop], by simp⟩⟩
    · rcases hl : accumulate_degree g f c l with _ | ⟨bl, c1⟩ <;>
        simp [accumulate_degree, hop, hl] at h
      rcases hr : accumulate_degree g f c1 r with _ | ⟨br, c2⟩ <;>
        simp [hr] at h
      obtain ⟨hb, hd⟩ := h
      obtain ⟨Sl, hSl, hSl2⟩ := ih l c bl c1 hl
      obtain ⟨Sr, hSr, hSr2⟩ := ih r c1 br c2 hr
      refine ⟨Sl ++ Sr, ?_, ?_⟩
      · intro t
        rw [← hd]
        simp only [List.mem_append, hSr t, hSl t]
        tauto
      · intro c0
        obtain ⟨d1, hd1, hk1⟩ := hSl2 c0
        obtain ⟨d2, hd2, hk2⟩ := hSr2 d1
        refine ⟨d2, ?_, ?_⟩
        · rw [← hb]
          simp [accumulate_degree, hop, hd1, hd2]
        · intro t
          simp only [List.mem_append, hk2 t, hk1 t]
          tauto
    · rcases hl : accumulate_degree g f c l with _ | ⟨bl, c1⟩ <;>
        simp [accumulate_degree, hop, hl] at h
      rcases hr : accumulate_degree g f c1 r with _ | ⟨br, c2⟩ <;>
        simp [hr] at h
      obtain ⟨hb, hd⟩ := h
      obtain ⟨Sl, hSl, hSl2⟩ := ih l c bl c1 hl
      obtain ⟨Sr, hSr, hSr2⟩ := ih r c1 br c2 hr
      refine ⟨Sl ++ Sr, ?_, ?_⟩
      · intro t
        rw [← hd]
        simp only [List.mem_append, hSr t, hSl t]
        tauto
      · intro c0
        obtain ⟨d1, hd1, hk1⟩ := hSl2 c0
        obtain ⟨d2, hd2, hk2⟩ := hSr2 d1
        refine ⟨d2, ?_, ?_⟩
        · rw [← hb]
          simp [accumulate_degree, hop, hd1, hd2]
        · intro t
          simp only [List.mem_append, hk2 t, hk1 t]
          tauto
    · rcases hl : accumulate_degree g f c l with _ | ⟨bl, c1⟩ <;>
        simp [accumulate_degree, hop, hl] at h
      rcases hr : accumulate_degree g f c1 r with _ | ⟨br, c2⟩ <;>
        simp [hr] at h
      obtain ⟨hb, hd⟩ := h
      obtain ⟨Sl, hSl, hSl2⟩ := ih l c bl c1 hl
      obtain ⟨Sr, hSr, hSr2⟩ := ih r c1 br c2 hr
      refine ⟨Sl ++ Sr, ?_, ?_⟩
      · intro t
        rw [← hd]
        simp only [List.mem_append, hSr t, hSl t]
        tauto
      · intro c0
        obtain ⟨d1, hd1, hk1⟩ := hSl2 c0
        obtain ⟨d2, hd2, hk2⟩ := hSr2 d1
        refine ⟨d2, ?_, ?_⟩
        · rw [← hb]
          simp [accumulate_degree, hop, hd1, hd2]
        · intro t
          simp only [List.mem_append, hk2 t, hk1 t]
          tauto
    · rcases hl : accumulate_degree g f c bb with _ | ⟨bl, c1⟩ <;>
        simp [accumulate_degree, hop, hl] at h
      obtain ⟨hb, hd⟩ := h
      obtain ⟨Sl, hSl, hSl2⟩ := ih bb c bl c1 hl
      refine ⟨Sl, ?_, ?_⟩
      · intro t
        rw [← hd]
        exact hSl t
      · intro c0
        obtain ⟨d1, hd1, hk1⟩ := hSl2 c0
        refine ⟨d1, ?_, hk1⟩
        rw [← hb]
        simp [accumulate_degree, hop, hd1]

/-- C2: the degree analysis follows the specification's rules. Constant,
random-value and public-input leaves contribute base degree 0 and no
cycles; a trace-element leaf contributes 1; a periodic-column leaf
contributes 0 while recording its cycle length under its table index; `Add`
and `Sub` take the max of their operands' base degrees and the recorded
cycle set is the union of the operands' cycle sets; `Mul` takes the sum of
the base degrees; `Exp(b, k)` takes `k` times the base degree of `b`; and
every table index is recorded at most once (the key list of the result is
duplicate-free). -/
theorem c2_degree_rules (g : AlgebraicGraph) (f : Nat) (k : NodeIndex) :
    (∀ K, nodeOp? g k = some (.Value (.Constant K)) →
      degree g (f + 1) k = some (0, [])) ∧
    (∀ i, nodeOp? g k = some (.Value (.RandomValue i)) →
      degree g (f + 1) k = some (0, [])) ∧
    (∀ s i, nodeOp? g k = some (.Value (.PublicInput s i)) →
      degree g (f + 1) k = some (0, [])) ∧
    (∀ ta, nodeOp? g k = some (.Value (.TraceElement ta)) →
      degree g (f + 1) k = some (1, [])) ∧
    (∀ i len, nodeOp? g k = some (.Value (.PeriodicColumn i len)) →
      accumulate_degree g (f + 1) [] k = some (0, [(i, len)])) ∧
    (∀ l r bl dl br dr, nodeOp? g k = some (.Add l r) →
      accumulate_degree g f [] l = some (bl, dl) →
      accumulate_degree g f [] r = some (br, dr) →
      ∃ d, accumulate_degree g (f + 1) [] k = some (max bl br, d) ∧
        (∀ t, t ∈ cycleKeys d ↔ t ∈ cycleKeys dl ∨ t ∈ cycleKeys dr) ∧
        (cycleKeys d).Nodup) ∧
    (∀ l r bl dl br dr, nodeOp? g k = some (.Sub l r) →
      accumulate_degree g f [] l = some (bl, dl) →
      accumulate_degree g f [] r = some (br, dr) →
      ∃ d, accumulate_degree g (f + 1) [] k = some (max bl br, d) ∧
        (∀ t, t ∈ cycleKeys d ↔ t ∈ cycleKeys dl ∨ t ∈ cycleKeys dr) ∧
        (cycleKeys d).Nodup) ∧
    (∀ l r bl dl br dr, nodeOp? g k = some (.Mul l r) →
      accumulate_degree g f [] l = some (bl, dl) →
      accumulate_degree g f [] r = some (br, dr) →
      ∃ d, accumulate_degree g (f + 1) [] k = some (bl + br, d) ∧
        (∀ t, t ∈ cycleKeys d ↔ t ∈ cycleKeys dl ∨ t ∈ cycleKeys dr) ∧
        (cycleKeys d).Nodup) ∧
    (∀ b e bl dl, nodeOp? g k = some (.Exp b e) →
      accumulate_degree g f [] b = some (bl, dl) →
      accumulate_degree g (f + 1) [] k = some (bl * e, dl)) := by
  have sortedNil : SortedKeys [] := by simp [SortedKeys, cycleKeys]
  refine ⟨?_, ?_, ?_, ?_, ?_, ?_, ?_, ?_, ?_⟩
  · intro K h; simp [degree, accumulate_degree, h]
  · intro i h; simp [degree, accumulate_degree, h]
  · intro s i h; simp [degree, accumulate_degree, h]
  · intro ta h; simp [degree, accumulate_degree, h]
  · intro i len h; simp [accumulate_degree, h, insertCycle]
  · intro l r bl dl br dr hop hl hr
    obtain ⟨Sr, hSr, hSr2⟩ := accumulate_degree_transfer g f r [] br dr hr
    obtain ⟨d2, hd2, hk2⟩ := hSr2 dl
    have hfull : accumulate_degree g (f + 1) [] k = some (max bl br, d2) := by
      simp [accumulate_degree, hop, hl, hd2]
    refine ⟨d2, hfull, ?_, ?_⟩
    · intro t
      have h1 := hk2 t
      have h2 := hSr t
      simp only [cycleKeys, List.map_nil, List.not_mem_nil, or_false] at h2
      rw [h1, ← h2]
      tauto
    · have : SortedKeys d2 :=
        accumulate_degree_sortedKeys g (f + 1) k [] (max bl br) d2 hfull sortedNil
      exact this.nodup
  · intro l r bl dl br dr hop hl hr
    obtain ⟨Sr, hSr, hSr2⟩ := accumulate_degree_transfer g f r [] br dr hr
    obtain ⟨d2, hd2, hk2⟩ := hSr2 dl
    have hfull : accumulate_degree g (f + 1) [] k = some (max bl br, d2) := by
      simp [accumulate_degree, hop, hl, hd2]
    refine ⟨d2, hfull, ?_, ?_⟩
    · intro t
      have h1 := hk2 t
      have h2 := hSr t
      simp only [cycleKeys, List.map_nil, List.not_mem_nil, or_false] at h2
      rw [h1, ← h2]
      tauto
    · have : SortedKeys d2 :=
        accumulate_degree_sortedKeys g (f + 1) k [] (max bl br) d2 hfull sortedNil
      exact this.nodup
  · intro l r bl dl br dr hop hl hr
    obtain ⟨Sr, hSr, hSr2⟩ := accumulate_degree_transfer g f r [] br dr hr
    obtain ⟨d2, hd2, hk2⟩ := hSr2 dl
    have hfull : accumulate_degree g (f + 1) [] k = some (bl + br, d2) := by
      simp [accumulate_degree, hop, hl, hd2]
    refine ⟨d2, hfull, ?_, ?_⟩
    · intro t
      have h1 := hk2 t
      have h2 := hSr t
      simp only [cycleKeys, List.map_nil, List.not_mem_nil, or_false] at h2
      rw [h1, ← h2]
      tauto
    · have : SortedKeys d2 :=
        accumulate_degree_sortedKeys g (f + 1) k [] (bl + br) d2 hfull sortedNil
      exact this.nodup
  · intro b e bl dl hop hl
    simp [accumulate_degree, hop, hl]

/-- Witness for C2 at the concrete graph `Add(PeriodicColumn(0, 2),
TraceElement)`: base degree `max 0 1` and the union of the operand cycle
sets. -/
theorem c2_degree_rules_witness :
    ∃ d, accumulate_degree degreeExampleGraph 2 [] ⟨2⟩ = some (max 0 1, d) ∧
      (∀ t, t ∈ cycleKeys d ↔
        t ∈ cycleKeys [(0, 2)] ∨ t ∈ cycleKeys ([] : List (Nat × Nat))) ∧
      (cycleKeys d).Nodup :=
  (c2_degree_rules degreeExampleGraph 1 ⟨2⟩).2.2.2.2.2.1 ⟨0⟩ ⟨1⟩ 0 [(0, 2)] 1 []
    (by decide) (by decide) (by decide)

/-- C3: the segment/domain inference follows the specification's rules: a
constant leaf yields the main segment (0) with the default domain; a
random-value leaf yields the auxiliary segment (1) with the default domain;
a trace-element leaf yields its own segment and the domain derived from its
row offset; a periodic-column leaf in an integrity context yields the main
segment and `EveryRow`; `Add`, `Sub` and `Mul` take the max of the operand
segments and merge the operand domains (propagating a merge error); `Exp`
inherits the result of its base. -/
theorem c3_node_details_rules (g : AlgebraicGraph) (f : Nat) (k : NodeIndex)
    (dd : ConstraintDomain) :
    (∀ K, nodeOp? g k = some (.Value (.Constant K)) →
      node_details g (f + 1) k dd = some (.ok 0 dd)) ∧
    (∀ i, nodeOp? g k = some (.Value (.RandomValue i)) →
      node_details g (f + 1) k dd = some (.ok 1 dd)) ∧
    (∀ ta, nodeOp? g k = some (.Value (.TraceElement ta)) →
      node_details g (f + 1) k dd =
        some (.ok ta.trace_segment (domainOfOffset ta.row_offset))) ∧
    (∀ i len, nodeOp? g k = some (.Value (.PeriodicColumn i len)) →
      dd.isIntegrity = true →
      node_details g (f + 1) k dd = some (.ok 0 .EveryRow)) ∧
    (∀ l r ls ld rs rd, nodeOp? g k = some (.Add l r) →
      node_details g f l dd = some (.ok ls ld) →
      node_details g f r dd = some (.ok rs rd) →
      node_details g (f + 1) k dd =
        (match ld.merge rd with
          | .ok dm => some (.ok (max ls rs) dm)
          | .error e => some (.err e))) ∧
    (∀ l r ls ld rs rd, nodeOp? g k = some (.Sub l r) →
      node_details g f l dd = some (.ok ls ld) →
      node_details g f r dd = some (.ok rs rd) →
      node_details g (f + 1) k dd =
        (match ld.merge rd with
          | .ok dm => some (.ok (max ls rs) dm)
          | .error e => some (.err e))) ∧
    (∀ l r ls ld rs rd, nodeOp? g k = some (.Mul l r) →
      node_details g f l dd = some (.ok ls ld) →
      node_details g f r dd = some (.ok rs rd) →
      node_details g (f + 1) k dd =
        (match ld.merge rd with
          | .ok dm => some (.ok (max ls rs) dm)
          | .error e => some (.err e))) ∧
    (∀ b e, nodeOp? g k = some (.Exp b e) →
      node_details g (f + 1) k dd = node_details g f b dd) := by
  refine ⟨?_, ?_, ?_, ?_, ?_, ?_, ?_, ?_⟩
  · intro K h; simp [node_details, h]
  · intro i h; simp [node_details, h]
  · intro ta h; simp [node_details, h]
  · intro i len h hint; simp [node_details, h, hint]
  · intro l r ls ld rs rd hop hl hr
    rcases hm : ld.merge rd with dm | e <;> simp [node_details, hop, hl, hr, hm]
  · intro l r ls ld rs rd hop hl hr
    rcases hm : ld.merge rd with dm | e <;> simp [node_details, hop, hl, hr, hm]
  · intro l r ls ld rs rd hop hl hr
    rcases hm : ld.merge rd with dm | e <;> simp [node_details, hop, hl, hr, hm]
  · intro b e hop
    simp [node_details, hop]

/-- Witness for C3 at the `Add` over a periodic-column leaf and a
trace-element leaf, in an integrity context. -/
theorem c3_node_details_rules_witness :
    node_details degreeExampleGraph 2 ⟨2⟩ .EveryRow =
      (match (ConstraintDomain.EveryRow).merge .EveryRow with
        | .ok dm => some (.ok (max 0 0) dm)
        | .error e => some (.err e)) :=
  (c3_node_details_rules degreeExampleGraph 1 ⟨2⟩ .EveryRow).2.2.2.2.1
    ⟨0⟩ ⟨1⟩ 0 .EveryRow 0 .EveryRow (by decide) (by decide) (by decide)

/-- C4 (code behaviour at the claimed error sites): `node_details` on a
public-input leaf with a non-boundary default domain, and on a
periodic-column leaf with a non-integrity default domain, reaches the
`todo!()` markers and panics — it does not return the
`PublicInputInIntegrity` / `PeriodicColumnInBoundary` errors the claim
names (no such error construction exists in the source; the error return is
commented out). -/
theorem c4_node_details_todo_panics :
    node_details publicInputLeafGraph 1 ⟨0⟩ .EveryRow = some .panicTodo ∧
    node_details periodicLeafGraph 1 ⟨0⟩ .FirstRow = some .panicTodo := by
  exact ⟨rfl, rfl⟩

/-! ## Pass-framework traversal theorems (claims C6, C7) -/

/-- C7 counterexample: running the post-order engine from the root 3 of the
shared-leaf graph visits nodes 0, 2, 3 in that order. Node 2 = `Add(0, 1)`
is visited although its child 1 has not been visited (it is never visited at
all): when node 2 is peeked, the last-visited node 0 is one of its children,
so the engine visits it immediately without scheduling child 1. The claim
that children are always visited before their parent, including under
sharing, is therefore false. -/
theorem c7_postorder_counterexample :
    visitPostorderRoots sharedLeafGraph [⟨3⟩] 20 = [⟨0⟩, ⟨2⟩, ⟨3⟩] ∧
    childrenAt sharedLeafGraph ⟨2⟩ = [⟨0⟩, ⟨1⟩] ∧
    childrenFirst sharedLeafGraph
      (visitPostorderRoots sharedLeafGraph [⟨3⟩] 20) = false := by
  exact ⟨rfl, rfl, rfl⟩

/-- C7 (amended): whenever the post-order engine invokes `visit` on a node,
either the node has no children or the immediately previously visited node
of that traversal is one of its children — this is exactly the guard the
work-stack loop maintains; it does not guarantee that all children have
been visited when sub-expressions are shared. -/
theorem c7_postorder_chain (g : AlgebraicGraph) :
    ∀ (fuel : Nat) (stack : List NodeIndex) (last : Option NodeIndex),
      chainOk g last (visitPostorderLoop g fuel stack last) = true := by
  intro fuel
  induction fuel with
  | zero => intro stack last; rfl
  | succ f ih =>
    intro stack last
    rcases stack with _ | ⟨k, rest⟩
    · rfl
    · by_cases h : lastIsChild g last k = true
      · simp only [visitPostorderLoop, if_pos h, chainOk, Bool.and_eq_true]
        exact ⟨h, ih rest (some k)⟩
      · simp only [visitPostorderLoop, if_neg h]
        exact ih (childrenAt g k ++ k :: rest) last

/-- C6 (root enumeration order is an independent input, not a function of
the root sets): the manual traversal visits roots in the order the
`HashSet` iterators yield them; two enumerations of the same root set — both
possible iteration orders of a `std` `HashSet`, whose order depends on the
per-process random hash seed — produce different visit sequences. -/
theorem c6_visit_order_not_determined_by_root_set :
    (∀ x : NodeIndex,
      x ∈ [(⟨0⟩ : NodeIndex), ⟨1⟩] ↔ x ∈ [(⟨1⟩ : NodeIndex), ⟨0⟩]) ∧
    visitManualOrder [⟨0⟩, ⟨1⟩] [] ≠ visitManualOrder [⟨1⟩, ⟨0⟩] [] := by
  constructor
  · intro x
    simp only [List.mem_cons, List.not_mem_nil, or_false]
    tauto
  · intro h
    simp [visitManualOrder] at h

/-- C8 (the pass is a stub): `ConstantPropagation::run` returns its input
unchanged for every MIR graph — `run_visitor` is an unimplemented stub that
breaks on nothing and rewrites nothing — so a graph containing an operation
whose operands are all constants survives the pass unfolded, contradicting
the claimed bottom-up folding; idempotence holds only because the pass is
the identity. -/
theorem c8_constant_propagation_stub :
    (∀ ir : MirGraph, constantPropagationRun ir = .ok ir) ∧
    constantPropagationRun mirAllConstExample = .ok mirAllConstExample ∧
    mirAllConstExample.nodes.any hasAllConstOp = true := by
  exact ⟨fun _ => rfl, rfl, rfl⟩

/-! ## Constant pool lemmas (claim C9) -/

theorem foldl_pushUnseen (l : List Nat) :
    ∀ acc : List Nat, l.foldl pushUnseen acc =
      acc ++ (firstSightings l).filter (fun w => decide (w ∉ acc)) := by
  induction l with
  | nil => intro acc; simp [firstSightings]
  | cons v rest ih =>
    intro acc
    have hstep : (v :: rest).foldl pushUnseen acc =
        rest.foldl pushUnseen (pushUnseen acc v) := rfl
    rw [hstep]
    by_cases hv : v ∈ acc
    · rw [show pushUnseen acc v = acc from if_pos hv, ih acc]
      simp only [firstSightings, List.filter_cons]
      have hdec : decide (v ∉ acc) = false := by simp [hv]
      rw [hdec]
      simp only [Bool.false_eq_true, if_false, List.filter_filter]
      congr 1
      apply List.filter_congr
      intro w _
      by_cases hw : w ∈ acc
      · simp [hw]
      · have hne : w ≠ v := fun he => hw (he ▸ hv)
        simp [hw, hne]
    · rw [show pushUnseen acc v = acc ++ [v] from if_neg hv, ih (acc ++ [v])]
      simp only [firstSightings, List.filter_cons]
      have hdec : decide (v ∉ acc) = true := by simp [hv]
      rw [hdec]
      simp only [if_true, List.filter_filter, List.append_assoc,
        List.singleton_append]
      congr 1
      congr 1
      apply List.filter_congr
      intro w _
      by_cases h1 : w ∈ acc <;> by_cases h2 : w = v <;>
        simp [h1, h2, List.mem_append]

theorem firstSightings_mem (v : Nat) :
    ∀ l : List Nat, v ∈ firstSightings l ↔ v ∈ l := by
  intro l
  induction l with
  | nil => simp [firstSightings]
  | cons w rest ih =>
    simp only [firstSightings, List.mem_cons, List.mem_filter, ih]
    by_cases hv : v = w
    · simp [hv]
    · simp [hv]

theorem firstSightings_nodup : ∀ l : List Nat, (firstSightings l).Nodup := by
  intro l
  induction l with
  | nil => simp [firstSightings]
  | cons w rest ih =>
    simp only [firstSightings, List.nodup_cons]
    constructor
    · intro hmem
      have := (List.mem_filter.mp hmem).2
      simp at this
    · exact List.Nodup.filter _ ih

/-- The code's two `pushUnseen` folds compute the first sighting of each
distinct value of the full constant stream. -/
theorem set_constants_eq_firstSightings (ir : GceIR) :
    set_constants ir = firstSightings (constantStream ir) := by
  unfold set_constants constantStream
  have h1 : ir.constants.foldl (fun acc c => (namedValues c).foldl pushUnseen acc) [] =
      ((ir.constants.map namedValues).flatten).foldl pushUnseen [] := by
    rw [List.foldl_flatten, List.foldl_map]
  have h2 : ∀ start : List Nat,
      ir.nodes.foldl (fun acc n => (nodeValues n).foldl pushUnseen acc) start =
      ((ir.nodes.map nodeValues).flatten).foldl pushUnseen start := by
    intro start
    rw [List.foldl_flatten, List.foldl_map]
  rw [h1, h2, ← List.foldl_append, foldl_pushUnseen]
  simp

/-- C9: the constant pool handed to the backend is exactly the distinct
values of the stream the source examines — named-constant values flattened
in declaration order, then inline constant leaves and `Exp` exponents in
arena order, with exponent 0 contributing the value 1 — kept in
first-sighting order with each value appearing exactly once; and the spec's
scenario 4 input yields the pool `[1, 0, 2, 5]`. -/
theorem c9_set_constants :
    (∀ ir : GceIR, set_constants ir = firstSightings (constantStream ir)) ∧
    (∀ ir : GceIR, (set_constants ir).Nodup) ∧
    (∀ (ir : GceIR) (v : Nat), v ∈ set_constants ir ↔ v ∈ constantStream ir) ∧
    set_constants gceScenario4 = [1, 0, 2, 5] := by
  refine ⟨set_constants_eq_firstSightings, ?_, ?_, by decide⟩
  · intro ir
    rw [set_constants_eq_firstSightings]
    exact firstSightings_nodup _
  · intro ir v
    rw [set_constants_eq_firstSightings]
    exact firstSightings_mem v _

end AirDsl
